import Mathlib

/-!
# Verification of the Montemurro–Zanette keyword extraction pipeline

A shallow embedding of `gensim/summarization/mz_entropy.py`.

The pipeline's true input boundary is the token sequence produced by an
external tokenizer (`tokenize_by_word` lives outside this module), so the
embedding takes a `List String` of word tokens.  Real-valued numpy/scipy
computations (`np.log2`, `np.exp`, `scipy.special.betaln`) are modelled over
`ℝ`; the embedding is exact on the domain where every `betaln` argument is
positive (no Gamma pole), which is the regime the theorems below work in.
Mathlib's conventions `x / 0 = 0`, `Real.log 0 = 0`, `Real.logb 2 0 = 0`
coincide with the effect of the source's `np.nan_to_num` on `0·log2 0`
terms, so observed entropy needs no special casing.
-/

namespace MZ

open Real List

/-- Splitting a token sequence into contiguous blocks of `b` tokens, the last
block possibly shorter: the loop `for i in range(0, len(words), blocksize)`
of `count_freqs_by_blocks` taking `words[i : i + blocksize]`.  A blocksize of
`0` is invalid in the source (`range` raises); we return `[]` there. -/
def toBlocks : Nat → List α → List (List α)
  | _, [] => []
  | 0, _ :: _ => []
  | b + 1, x :: xs => (x :: xs).take (b + 1) :: toBlocks (b + 1) ((x :: xs).drop (b + 1))
termination_by b l => l.length
decreasing_by simp [List.length_drop]; omega

/-- `count_freqs_by_blocks(words, vocab, blocksize)`: one row per block, one
column per vocabulary word, cell = occurrences of that word in that block.
The source increments `counts[word2ind[word]]`; for a duplicate-free `vocab`
(the callers' sorted-set vocabulary) that is exactly the per-word count. -/
def count_freqs_by_blocks (words vocab : List String) (blocksize : Nat) :
    List (List Nat) :=
  (toBlocks blocksize words).map (fun blk => vocab.map (fun w => blk.count w))

theorem toBlocks_flatten :
    ∀ (b : Nat) (l : List α), 1 ≤ b → (toBlocks b l).flatten = l := by
  intro b l
  induction b, l using MZ.toBlocks.induct with
  | case1 => intro _; simp [toBlocks]
  | case2 => intro h; exact absurd h (by omega)
  | case3 b x xs ih =>
      intro _
      simp only [toBlocks, List.flatten_cons]
      rw [ih (by omega)]
      exact List.take_append_drop _ _

theorem toBlocks_length :
    ∀ (b : Nat) (l : List α), 1 ≤ b →
      (toBlocks b l).length = (l.length + b - 1) / b := by
  intro b l
  induction b, l using MZ.toBlocks.induct with
  | case1 b =>
      intro hb
      simp only [toBlocks, List.length_nil]
      exact (Nat.div_eq_of_lt (by omega)).symm
  | case2 => intro h; exact absurd h (by omega)
  | case3 b x xs ih =>
      intro _
      simp only [toBlocks, List.length_cons]
      rw [ih (by omega)]
      have hd : ((x :: xs).drop (b + 1)).length = xs.length - b := by
        simp only [List.length_drop, List.length_cons]
        omega
      rw [hd]
      rcases Nat.lt_or_ge b xs.length with hbn | hbn
      · have h5 : xs.length - b + (b + 1) - 1 = xs.length := by omega
        have h6 : xs.length + 1 + (b + 1) - 1 = xs.length + (b + 1) := by omega
        rw [h5, h6, Nat.add_div_right _ (by omega)]
      · have h5 : xs.length - b + (b + 1) - 1 = b := by omega
        have h6 : b / (b + 1) = 0 := Nat.div_eq_of_lt (by omega)
        have h7 : (xs.length + 1 + (b + 1) - 1) / (b + 1) = 1 := by
          apply Nat.div_eq_of_lt_le <;> omega
        rw [h5, h6, h7]

theorem toBlocks_get :
    ∀ (b : Nat) (l : List α), 1 ≤ b →
      ∀ (i : Nat) (hi : i < (toBlocks b l).length),
        (toBlocks b l).get ⟨i, hi⟩ = (l.drop (b * i)).take b := by
  intro b l
  induction b, l using MZ.toBlocks.induct with
  | case1 b => intro _ i hi; simp [toBlocks] at hi
  | case2 => intro h; exact absurd h (by omega)
  | case3 b x xs ih =>
      intro _ i hi
      match i with
      | 0 => simp [toBlocks]
      | i + 1 =>
          have hi' : i < (toBlocks (b + 1) ((x :: xs).drop (b + 1))).length := by
            simpa [toBlocks] using hi
          have : (toBlocks (b + 1) (x :: xs)).get ⟨i + 1, hi⟩
              = (toBlocks (b + 1) ((x :: xs).drop (b + 1))).get ⟨i, hi'⟩ := by
            simp [toBlocks]
          rw [this, ih (by omega) i hi', List.drop_drop]
          congr 2
          simp only [Nat.succ_eq_add_one]
          ring

theorem count_filter_ne (w v : String) (blk : List String) (hvw : v ≠ w) :
    (blk.filter (fun x => !(x == w))).count v = blk.count v := by
  apply List.count_filter
  simp [hvw]

/-- For a duplicate-free vocabulary covering a block, the per-word counts sum
to the block's length. -/
theorem sum_map_count_eq_length :
    ∀ (vocab : List String), vocab.Nodup →
      ∀ blk : List String, (∀ x ∈ blk, x ∈ vocab) →
        (vocab.map (fun w => blk.count w)).sum = blk.length := by
  intro vocab
  induction vocab with
  | nil =>
      intro _ blk hc
      have hblk : blk = [] :=
        List.eq_nil_iff_forall_not_mem.mpr (fun x hx => by simpa using hc x hx)
      subst hblk; simp
  | cons w vs ih =>
      intro hn blk hc
      have hw : w ∉ vs := (List.nodup_cons.mp hn).1
      have hvs : vs.Nodup := (List.nodup_cons.mp hn).2
      simp only [List.map_cons, List.sum_cons]
      have hmap : vs.map (fun v => blk.count v)
          = vs.map (fun v => (blk.filter (fun x => !(x == w))).count v) := by
        apply List.map_congr_left
        intro v hv
        exact (count_filter_ne w v blk (fun h => hw (h ▸ hv))).symm
      rw [hmap, ih hvs _ (fun x hx => by
        rcases List.mem_filter.mp hx with ⟨hx1, hx2⟩
        have hxw : x ≠ w := by simpa using hx2
        rcases List.mem_cons.mp (hc x hx1) with h | h
        · exact absurd h hxw
        · exact h)]
      have hcount : blk.count w = (blk.filter (fun x => x == w)).length := by
        rw [List.count_eq_countP, List.countP_eq_length_filter]
      rw [hcount]
      have := List.length_eq_length_filter_add (l := blk) (fun x => x == w)
      omega

/-- `toBlocks` agrees with slicing: block `i` is `words[b*i : b*i + b]`, and
there are `ceil (length / b)` blocks, mirroring the loop
`for i in range(0, len(words), blocksize)`. -/
theorem toBlocks_eq_slices (b : Nat) (l : List α) (hb : 1 ≤ b) :
    toBlocks b l
      = (List.range ((l.length + b - 1) / b)).map (fun i => (l.drop (b * i)).take b) := by
  apply List.ext_get
  · rw [toBlocks_length b l hb]
    simp
  · intro i h1 h2
    rw [toBlocks_get b l hb i h1]
    simp

/-- `scipy.special.betaln(x, y)`: the log of the Beta function
`B(x, y) = Γ(x)·Γ(y)/Γ(x+y)`; exact for positive arguments. -/
noncomputable def betaln (x y : ℝ) : ℝ :=
  Real.log (Real.Gamma x * Real.Gamma y / Real.Gamma (x + y))

/-- `__log_combinations_inner(n, m)`: the logarithm of `n!/(m!(n-m)!)`
computed as `-(np.log(n + 1) + scipy.special.betaln(n - m + 1, m + 1))`. -/
noncomputable def log_combinations (n m : ℝ) : ℝ :=
  -(Real.log (n + 1) + betaln (n - m + 1) (m + 1))

/-- `__marginal_prob(blocksize, n_words)(n, m)`: probability that a word with
`n` total occurrences occurs `m` times in a block, as the source computes
it — `exp` of a sum of three log-combinations. -/
noncomputable def marginal_prob (blocksize n_words : ℝ) (n m : ℝ) : ℝ :=
  Real.exp
    (log_combinations n m + log_combinations (n_words - n) (blocksize - m)
      - log_combinations n_words blocksize)

/-- `__analytic_entropy(blocksize, n_blocks, n_words)(n)`: predicted (null)
entropy for a word occurring `n` times.  The source seeds its cache with
`{1: 0.0}`; for other `n` it sums `m` over `np.arange(1, min(blocksize, n) + 1)`
with `p = m / n`. -/
noncomputable def analytic_entropy (blocksize n_blocks n_words : ℕ) (n : ℕ) : ℝ :=
  if n = 1 then 0
  else
    -(n_blocks : ℝ) * ∑ m in Finset.Icc 1 (min blocksize n),
      ((m : ℝ) / (n : ℝ) * Real.logb 2 ((m : ℝ) / (n : ℝ)))
        * marginal_prob (blocksize : ℝ) (n_words : ℝ) (n : ℝ) (m : ℝ)

/-- The hypergeometric probability mass `C(n,m)·C(N−n, B−m) / C(N,B)` that
§4.2 of the specification names as the intended value of the marginal. -/
noncomputable def hypergeom_pmf (blocksize n_words n m : ℕ) : ℝ :=
  ((n.choose m : ℕ) : ℝ) * (((n_words - n).choose (blocksize - m) : ℕ) : ℝ)
    / ((n_words.choose blocksize : ℕ) : ℝ)

/-- Modelled from the spec (§4.3 wording, for comparison with the source):
the analytic entropy computed with `p = m/B` — "For each m, compute p = m/B"
— and `P(m)` the §4.2 hypergeometric marginal. -/
noncomputable def analytic_entropy_specFormula (blocksize n_blocks n_words : ℕ)
    (n : ℕ) : ℝ :=
  if n = 1 then 0
  else
    ∑ m in Finset.Icc 1 (min blocksize n),
      -(n_blocks : ℝ) * ((m : ℝ) / (blocksize : ℝ)
          * Real.logb 2 ((m : ℝ) / (blocksize : ℝ)))
        * hypergeom_pmf blocksize n_words n m

/-- One word's observed entropy: the column of
`np.nan_to_num(p * log_p).sum(axis=0)` for that word, where `p` is the block
count divided by the word's document total.  Mathlib's `x/0 = 0` and
`logb 2 0 = 0` give the `nan_to_num` convention `0·log2 0 = 0`. -/
noncomputable def word_entropy (blocks : List (List String)) (total : ℕ)
    (w : String) : ℝ :=
  (blocks.map (fun blk =>
    ((blk.count w : ℝ) / (total : ℝ))
      * Real.logb 2 ((blk.count w : ℝ) / (total : ℝ)))).sum

/-- The `threshold` parameter: either the numeric value or the literal
`'auto'` (modelled as a tagged variant, per the spec's design note). -/
inductive Threshold where
  | auto : Threshold
  | num : ℝ → Threshold

/-- Threshold resolution: `'auto'` becomes
`n_blocks / (n_blocks + 1.0) + 1.0e-8`; a numeric value is used as given. -/
noncomputable def resolve_threshold (n_blocks : ℕ) : Threshold → ℝ
  | Threshold.auto => (n_blocks : ℝ) / ((n_blocks : ℝ) + 1) + 1e-8
  | Threshold.num x => x

/-- The scored vocabulary of `mz_keywords` before thresholding: sorted
distinct words paired with observed-plus-analytic entropy, optionally
weighted by `totals / n_words`. -/
noncomputable def mz_scores (words : List String) (blocksize : ℕ)
    (weighted : Bool) : List (String × ℝ) :=
  let vocab := (words.dedup).mergeSort (fun a b => decide (a ≤ b))
  let blocks := toBlocks blocksize words
  let n_blocks := blocks.length
  let n_words := (vocab.map (fun w => (blocks.map (fun blk => blk.count w)).sum)).sum
  vocab.map (fun w =>
    let total := (blocks.map (fun blk => blk.count w)).sum
    let h := word_entropy blocks total w + analytic_entropy blocksize n_blocks n_words total
    (w, if weighted then h * ((total : ℝ) / (n_words : ℝ)) else h))

/-- The list `weights` of the source: scored words strictly above the
resolved threshold, still in vocabulary order (before sorting). -/
noncomputable def mz_filtered (words : List String) (blocksize : ℕ)
    (weighted : Bool) (threshold : Threshold) : List (String × ℝ) :=
  (mz_scores words blocksize weighted).filter
    (fun p => decide (resolve_threshold (toBlocks blocksize words).length threshold < p.2))

/-- `weights` after `weights.sort(key=lambda x: -x[1])`: a stable sort by
descending score. -/
noncomputable def mz_weights (words : List String) (blocksize : ℕ)
    (weighted : Bool) (threshold : Threshold) : List (String × ℝ) :=
  (mz_filtered words blocksize weighted threshold).mergeSort
    (fun a b => decide (b.2 ≤ a.2))

/-- The result with `scores=False, split=True`: the ranked keywords. -/
noncomputable def mz_keywords_list (words : List String) (blocksize : ℕ)
    (weighted : Bool) (threshold : Threshold) : List String :=
  (mz_weights words blocksize weighted threshold).map Prod.fst

/-- Python's `'\n'.join`. -/
def joinNl : List String → String
  | [] => ""
  | [s] => s
  | s :: t :: rest => s ++ "\n" ++ joinNl (t :: rest)

/-- The result with `scores=False, split=False`: keywords joined by
newlines. -/
noncomputable def mz_keywords_string (words : List String) (blocksize : ℕ)
    (weighted : Bool) (threshold : Threshold) : String :=
  joinNl (mz_keywords_list words blocksize weighted threshold)

/-- Splitting a character sequence at newline characters, with Python's
`str.split('\n')` convention (the empty text yields one empty field). -/
def splitNlAux : List Char → List (List Char)
  | [] => [[]]
  | c :: cs =>
      if c = '\n' then [] :: splitNlAux cs
      else
        match splitNlAux cs with
        | [] => [[c]]
        | g :: gs => (c :: g) :: gs

/-- Python's `s.split('\n')`. -/
def splitNl (s : String) : List String :=
  (splitNlAux s.data).map (fun l => String.mk l)

theorem betaln_nat (a b : ℕ) :
    betaln ((a : ℝ) + 1) ((b : ℝ) + 1)
      = Real.log (((Nat.factorial a : ℕ) : ℝ) * ((Nat.factorial b : ℕ) : ℝ) / ((Nat.factorial (a + b + 1) : ℕ) : ℝ)) := by
  unfold betaln
  rw [Real.Gamma_nat_eq_factorial, Real.Gamma_nat_eq_factorial]
  congr 2
  have harg : ((a : ℝ) + 1) + ((b : ℝ) + 1) = ((a + b + 1 : ℕ) : ℝ) + 1 := by
    push_cast; ring
  rw [harg, Real.Gamma_nat_eq_factorial]

theorem log_combinations_nat (a b : ℕ) (h : b ≤ a) :
    log_combinations (a : ℝ) (b : ℝ) = Real.log ((a.choose b : ℕ) : ℝ) := by
  unfold log_combinations
  have harg : (a : ℝ) - (b : ℝ) + 1 = ((a - b : ℕ) : ℝ) + 1 := by
    rw [Nat.cast_sub h]
  rw [harg, betaln_nat]
  have hab : a - b + b + 1 = a + 1 := by omega
  rw [hab]
  have hfab : (0 : ℝ) < ((Nat.factorial (a - b) : ℕ) : ℝ) := by
    exact_mod_cast Nat.factorial_pos (a - b)
  have hfb : (0 : ℝ) < ((Nat.factorial b : ℕ) : ℝ) := by exact_mod_cast Nat.factorial_pos b
  have hfa : (0 : ℝ) < ((Nat.factorial a : ℕ) : ℝ) := by exact_mod_cast Nat.factorial_pos a
  have hfa1 : (0 : ℝ) < ((Nat.factorial (a + 1) : ℕ) : ℝ) := by
    exact_mod_cast Nat.factorial_pos (a + 1)
  have hX : (0 : ℝ) < ((Nat.factorial (a - b) : ℕ) : ℝ) * ((Nat.factorial b : ℕ) : ℝ) := mul_pos hfab hfb
  have hchoose : ((a.choose b : ℕ) : ℝ)
      = ((Nat.factorial a : ℕ) : ℝ) / (((Nat.factorial (a - b) : ℕ) : ℝ) * ((Nat.factorial b : ℕ) : ℝ)) := by
    rw [eq_div_iff hX.ne']
    have hnat : a.choose b * (Nat.factorial (a - b) * Nat.factorial b) = Nat.factorial a := by
      rw [← Nat.choose_mul_factorial_mul_factorial h]; ring
    exact_mod_cast hnat
  have hfa1' : ((Nat.factorial (a + 1) : ℕ) : ℝ) = ((a : ℝ) + 1) * ((Nat.factorial a : ℕ) : ℝ) := by
    rw [Nat.factorial_succ]; push_cast; ring
  rw [hchoose, Real.log_div hfa.ne' hX.ne', Real.log_div hX.ne' hfa1.ne', hfa1',
    Real.log_mul (by positivity) hfa.ne']
  ring

/-- The marginal probability, as the source computes it from three
log-combinations, equals the hypergeometric mass on the support of the
hypergeometric distribution. -/
theorem marginal_prob_eq_hypergeom (B N n m : ℕ) (h1 : m ≤ n) (h2 : m ≤ B)
    (h3 : B + n ≤ N + m) :
    marginal_prob (B : ℝ) (N : ℝ) (n : ℝ) (m : ℝ) = hypergeom_pmf B N n m := by
  have hnN : n ≤ N := by omega
  have hBN : B ≤ N := by omega
  have hsub : B - m ≤ N - n := by omega
  unfold marginal_prob hypergeom_pmf
  have hc1 : (N : ℝ) - (n : ℝ) = ((N - n : ℕ) : ℝ) := by rw [Nat.cast_sub hnN]
  have hc2 : (B : ℝ) - (m : ℝ) = ((B - m : ℕ) : ℝ) := by rw [Nat.cast_sub h2]
  rw [hc1, hc2, log_combinations_nat n m h1, log_combinations_nat (N - n) (B - m) hsub,
    log_combinations_nat N B hBN]
  have hp1 : (0 : ℝ) < ((n.choose m : ℕ) : ℝ) := by
    exact_mod_cast Nat.choose_pos h1
  have hp2 : (0 : ℝ) < (((N - n).choose (B - m) : ℕ) : ℝ) := by
    exact_mod_cast Nat.choose_pos hsub
  have hp3 : (0 : ℝ) < ((N.choose B : ℕ) : ℝ) := by
    exact_mod_cast Nat.choose_pos hBN
  rw [Real.exp_sub, Real.exp_add, Real.exp_log hp1, Real.exp_log hp2, Real.exp_log hp3]

/-- C6: on the hypergeometric support (`m ≤ min(B, n)` with enough
non-occurrence slots, `B + n ≤ N + m`), the marginal probability — computed
by exponentiating the sum of three log-binomial terms, each obtained from
`log C(a,b) = -[log(a+1) + logBeta(a-b+1, b+1)]` — equals the hypergeometric
mass `C(n,m)·C(N-n, B-m)/C(N,B)`. -/
theorem claim6_marginal_is_hypergeometric (B N n m : ℕ) (h1 : m ≤ n) (h2 : m ≤ B)
    (h3 : B + n ≤ N + m) :
    marginal_prob (B : ℝ) (N : ℝ) (n : ℝ) (m : ℝ) = hypergeom_pmf B N n m :=
  marginal_prob_eq_hypergeom B N n m h1 h2 h3

theorem claim6_witness :
    2 ≤ 4 ∧ 2 ≤ 3 ∧ 3 + 4 ≤ 10 + 2 ∧
      marginal_prob ((3 : ℕ) : ℝ) ((10 : ℕ) : ℝ) ((4 : ℕ) : ℝ) ((2 : ℕ) : ℝ)
        = hypergeom_pmf 3 10 4 2 :=
  ⟨by decide, by decide, by decide,
    claim6_marginal_is_hypergeometric 3 10 4 2 (by decide) (by decide) (by decide)⟩

/-- C1 (amended): the analytic entropy of a word with total count `n` is `0`
for `n = 1` and, for `n ≥ 2` (inside the hypergeometric support,
`n + B ≤ N + 1`), equals
`Σ_{m=1}^{min(B,n)} -n_blocks · (p·log2 p) · P(m)` with `p = m/n`
(the source divides by `n`, not by the blocksize) and `P(m)` the §4.2
hypergeometric marginal. -/
theorem claim1_analytic_entropy (B nb N n : ℕ) (hn : 2 ≤ n) (hdom : n + B ≤ N + 1) :
    analytic_entropy B nb N 1 = 0 ∧
    analytic_entropy B nb N n
      = ∑ m in Finset.Icc 1 (min B n),
          -(nb : ℝ) * (((m : ℝ) / (n : ℝ)) * Real.logb 2 ((m : ℝ) / (n : ℝ)))
            * hypergeom_pmf B N n m := by
  constructor
  · simp [analytic_entropy]
  · rw [analytic_entropy, if_neg (by omega)]
    have hcong : ∀ m ∈ Finset.Icc 1 (min B n),
        ((m : ℝ) / (n : ℝ) * Real.logb 2 ((m : ℝ) / (n : ℝ)))
            * marginal_prob (B : ℝ) (N : ℝ) (n : ℝ) (m : ℝ)
          = ((m : ℝ) / (n : ℝ) * Real.logb 2 ((m : ℝ) / (n : ℝ)))
            * hypergeom_pmf B N n m := by
      intro m hm
      rcases Finset.mem_Icc.mp hm with ⟨hm1, hm2⟩
      rcases le_min_iff.mp hm2 with ⟨hmB, hmn⟩
      rw [marginal_prob_eq_hypergeom B N n m hmn hmB (by omega)]
    rw [Finset.sum_congr rfl hcong, Finset.mul_sum]
    exact Finset.sum_congr rfl (fun m hm => by ring)

theorem claim1_analytic_entropy_witness :
    2 ≤ 2 ∧ 2 + 1 ≤ 3 + 1 ∧
      (analytic_entropy 1 2 3 1 = 0 ∧
        analytic_entropy 1 2 3 2
          = ∑ m in Finset.Icc (1 : ℕ) (min 1 2),
              -((2 : ℕ) : ℝ)
                  * (((m : ℝ) / ((2 : ℕ) : ℝ)) * Real.logb 2 ((m : ℝ) / ((2 : ℕ) : ℝ)))
                * hypergeom_pmf 1 3 2 m) :=
  ⟨by decide, by decide, claim1_analytic_entropy 1 2 3 2 (by decide) (by decide)⟩

theorem hypergeom_pmf_1221 : hypergeom_pmf 1 2 2 1 = 1 := by
  have hc1 : (2 : ℕ).choose 1 = 2 := by decide
  have hc2 : (0 : ℕ).choose 0 = 1 := by decide
  rw [hypergeom_pmf]
  norm_num [hc1, hc2]

theorem logb_two_half : Real.logb 2 ((1 : ℝ) / 2) = -1 := by
  rw [one_div, Real.logb_inv, Real.logb_self_eq_one (by norm_num)]

/-- C1 counterexample: with blocksize 1, 2 blocks, 2 document words and a
word of total count 2, the source's analytic entropy is `1` while the
claim's formula (`p = m/B`) gives `0`. -/
theorem claim1_counterexample :
    analytic_entropy 1 2 2 2 = 1 ∧ analytic_entropy_specFormula 1 2 2 2 = 0 ∧
      analytic_entropy 1 2 2 2 ≠ analytic_entropy_specFormula 1 2 2 2 := by
  have hmin : min 1 2 = 1 := by decide
  have h1 : analytic_entropy 1 2 2 2 = 1 := by
    rw [analytic_entropy, if_neg (by omega), hmin, Finset.Icc_self, Finset.sum_singleton]
    rw [marginal_prob_eq_hypergeom 1 2 2 1 (by omega) (by omega) (by omega),
      hypergeom_pmf_1221]
    have : ((1 : ℕ) : ℝ) / ((2 : ℕ) : ℝ) = (1 : ℝ) / 2 := by push_cast; ring
    rw [this, logb_two_half]
    norm_num
  have h2 : analytic_entropy_specFormula 1 2 2 2 = 0 := by
    rw [analytic_entropy_specFormula, if_neg (by omega), hmin, Finset.Icc_self,
      Finset.sum_singleton]
    have : ((1 : ℕ) : ℝ) / ((1 : ℕ) : ℝ) = (1 : ℝ) := by norm_num
    rw [this, Real.logb_one]
    ring
  exact ⟨h1, h2, by rw [h1, h2]; exact one_ne_zero⟩

/-- C7: the count matrix has exactly `ceil(len(words)/blocksize)` rows, and
each vocabulary word's column sums to that word's total occurrence count in
the token sequence. -/
theorem claim7_matrix_shape_and_column_sums (words vocab : List String)
    (blocksize : ℕ) (hb : 1 ≤ blocksize) (i : ℕ) (hi : i < vocab.length) :
    (count_freqs_by_blocks words vocab blocksize).length
        = (words.length + blocksize - 1) / blocksize ∧
    ((count_freqs_by_blocks words vocab blocksize).map (fun row => row.getD i 0)).sum
        = words.count (vocab.get ⟨i, hi⟩) := by
  constructor
  · rw [count_freqs_by_blocks, List.length_map, toBlocks_length blocksize words hb]
  · have hcol : ∀ blk : List String,
        (vocab.map (fun w => blk.count w)).getD i 0 = blk.count (vocab.get ⟨i, hi⟩) := by
      intro blk
      rw [List.getD_eq_getElem?_getD, List.getElem?_map, List.getElem?_eq_getElem hi]
      simp [List.get_eq_getElem]
    rw [count_freqs_by_blocks, List.map_map]
    have hmaps : (toBlocks blocksize words).map
          ((fun row : List ℕ => row.getD i 0) ∘ (fun blk => vocab.map (fun w => blk.count w)))
        = (toBlocks blocksize words).map (fun blk => blk.count (vocab.get ⟨i, hi⟩)) :=
      List.map_congr_left (fun blk _ => hcol blk)
    rw [hmaps, ← List.count_flatten, toBlocks_flatten blocksize words hb]

theorem claim7_witness :
    1 ≤ 2 ∧ 1 < (["a", "b"] : List String).length ∧
      ((count_freqs_by_blocks ["b", "a", "b"] ["a", "b"] 2).length
          = ((["b", "a", "b"] : List String).length + 2 - 1) / 2 ∧
        ((count_freqs_by_blocks ["b", "a", "b"] ["a", "b"] 2).map
            (fun row => row.getD 1 0)).sum
          = (["b", "a", "b"] : List String).count
              ((["a", "b"] : List String).get ⟨1, by decide⟩)) :=
  ⟨by decide, by decide,
    claim7_matrix_shape_and_column_sums ["b", "a", "b"] ["a", "b"] 2 (by decide) 1 (by decide)⟩

/-- C9: each row of the count matrix sums to the size of its block: the full
`blocksize` for every row but the last, and the remainder
`len(words) - blocksize*(n_blocks - 1)` for the last row. -/
theorem claim9_row_sums (words vocab : List String) (blocksize : ℕ)
    (hb : 1 ≤ blocksize) (hne : words ≠ [])
    (hnd : vocab.Nodup) (hcov : ∀ w ∈ words, w ∈ vocab)
    (i : ℕ) (hi : i < (count_freqs_by_blocks words vocab blocksize).length) :
    ((count_freqs_by_blocks words vocab blocksize).get ⟨i, hi⟩).sum
      = if i + 1 < (count_freqs_by_blocks words vocab blocksize).length
        then blocksize
        else words.length
            - blocksize * ((count_freqs_by_blocks words vocab blocksize).length - 1) := by
  have hlen : (count_freqs_by_blocks words vocab blocksize).length
      = (toBlocks blocksize words).length := by
    rw [count_freqs_by_blocks, List.length_map]
  have hi' : i < (toBlocks blocksize words).length := by rw [← hlen]; exact hi
  have hrow : (count_freqs_by_blocks words vocab blocksize).get ⟨i, hi⟩
      = vocab.map (fun w => ((toBlocks blocksize words).get ⟨i, hi'⟩).count w) := by
    simp only [List.get_eq_getElem, count_freqs_by_blocks, List.getElem_map]
  have hblkcov : ∀ x ∈ (toBlocks blocksize words).get ⟨i, hi'⟩, x ∈ vocab := by
    intro x hx
    apply hcov
    have hmem : (toBlocks blocksize words).get ⟨i, hi'⟩ ∈ toBlocks blocksize words :=
      List.get_mem _ _ hi'
    have : x ∈ (toBlocks blocksize words).flatten := List.mem_flatten.mpr ⟨_, hmem, hx⟩
    rwa [toBlocks_flatten blocksize words hb] at this
  rw [hrow, sum_map_count_eq_length vocab hnd _ hblkcov,
    toBlocks_get blocksize words hb i hi', List.length_take, List.length_drop, hlen,
    toBlocks_length blocksize words hb]
  have hL : 1 ≤ words.length := List.length_pos.mpr hne
  have hnb : i < (words.length + blocksize - 1) / blocksize := by
    rw [← toBlocks_length blocksize words hb]; exact hi'
  have hlb : ((words.length + blocksize - 1) / blocksize) * blocksize
      ≤ words.length + blocksize - 1 := Nat.div_mul_le_self _ _
  have hub : words.length + blocksize - 1
      < (((words.length + blocksize - 1) / blocksize) + 1) * blocksize :=
    (Nat.div_lt_iff_lt_mul (by omega : 0 < blocksize)).mp (Nat.lt_succ_self _)
  rcases Nat.lt_or_ge (i + 1) ((words.length + blocksize - 1) / blocksize) with h | h
  · rw [if_pos h]
    have h3 : (i + 2) * blocksize
        ≤ ((words.length + blocksize - 1) / blocksize) * blocksize :=
      Nat.mul_le_mul_right _ (by omega)
    have h4 : blocksize * i + (blocksize + blocksize) = (i + 2) * blocksize := by ring
    omega
  · rw [if_neg (by omega)]
    have h5 : ((words.length + blocksize - 1) / blocksize) - 1 = i := by omega
    rw [h5]
    have h6 : ((words.length + blocksize - 1) / blocksize) + 1 ≤ i + 2 := by omega
    have h7 : (((words.length + blocksize - 1) / blocksize) + 1) * blocksize
        ≤ (i + 2) * blocksize := Nat.mul_le_mul_right _ h6
    have h8 : (i + 2) * blocksize = blocksize * i + (blocksize + blocksize) := by ring
    omega

theorem claim9_witness_bound :
    1 < (count_freqs_by_blocks ["a", "b", "c"] ["a", "b", "c"] 2).length := by
  rw [count_freqs_by_blocks, List.length_map, toBlocks_length 2 _ (by decide)]
  decide

theorem claim9_witness :
    1 ≤ 2 ∧ (["a", "b", "c"] : List String) ≠ [] ∧
      (["a", "b", "c"] : List String).Nodup ∧
      (∀ w ∈ (["a", "b", "c"] : List String), w ∈ (["a", "b", "c"] : List String)) ∧
      ((count_freqs_by_blocks ["a", "b", "c"] ["a", "b", "c"] 2).get
          ⟨1, claim9_witness_bound⟩).sum
        = if 1 + 1 < (count_freqs_by_blocks ["a", "b", "c"] ["a", "b", "c"] 2).length
          then 2
          else (["a", "b", "c"] : List String).length
              - 2 * ((count_freqs_by_blocks ["a", "b", "c"] ["a", "b", "c"] 2).length - 1) :=
  ⟨by decide, by decide, by decide, by decide,
    claim9_row_sums ["a", "b", "c"] ["a", "b", "c"] 2 (by decide) (by decide)
      (by decide) (by decide) 1 claim9_witness_bound⟩

/-- C4: every (word, score) pair in the returned weights has score strictly
greater than the resolved threshold (`auto` resolving to
`n_blocks/(n_blocks+1.0) + 1e-8`, numeric thresholds used as given). -/
theorem claim4_scores_strictly_above_threshold (words : List String) (blocksize : ℕ)
    (weighted : Bool) (threshold : Threshold) :
    List.Forall
      (fun p : String × ℝ =>
        resolve_threshold (toBlocks blocksize words).length threshold < p.2)
      (mz_weights words blocksize weighted threshold) := by
  rw [List.forall_iff_forall_mem]
  intro x hx
  rw [mz_weights, List.mem_mergeSort, mz_filtered, List.mem_filter] at hx
  exact of_decide_eq_true hx.2

theorem scoreLe_trans : ∀ a b c : String × ℝ,
    decide (b.2 ≤ a.2) = true → decide (c.2 ≤ b.2) = true →
      decide (c.2 ≤ a.2) = true := by
  intro a b c h1 h2
  rw [decide_eq_true_iff] at h1 h2 ⊢
  exact le_trans h2 h1

theorem scoreLe_total : ∀ a b : String × ℝ,
    (decide (b.2 ≤ a.2) || decide (a.2 ≤ b.2)) = true := by
  intro a b
  rcases le_total a.2 b.2 with h | h
  · simp [h]
  · simp [h]

/-- C5: the result is sorted by non-increasing score, and the sort is stable:
for every score value, the pairs carrying that score appear in exactly their
pre-sort (vocabulary) order. -/
theorem claim5_sorted_and_stable (words : List String) (blocksize : ℕ)
    (weighted : Bool) (threshold : Threshold) :
    List.Pairwise (fun a b : String × ℝ => b.2 ≤ a.2)
        (mz_weights words blocksize weighted threshold) ∧
      ∀ s : ℝ,
        (mz_weights words blocksize weighted threshold).filter
            (fun x => decide (x.2 = s))
          = (mz_filtered words blocksize weighted threshold).filter
              (fun x => decide (x.2 = s)) := by
  constructor
  · have hs := List.sorted_mergeSort scoreLe_trans scoreLe_total
      (mz_filtered words blocksize weighted threshold)
    rw [mz_weights]
    exact hs.imp (fun h => of_decide_eq_true h)
  · intro s
    have hA : ((mz_filtered words blocksize weighted threshold).filter
        (fun x => decide (x.2 = s))).Pairwise
        (fun a b : String × ℝ => decide (b.2 ≤ a.2) = true) := by
      apply List.pairwise_of_forall_mem_list
      intro a ha b hb
      have ha2 : a.2 = s := of_decide_eq_true (List.mem_filter.mp ha).2
      have hb2 : b.2 = s := of_decide_eq_true (List.mem_filter.mp hb).2
      exact decide_eq_true (by rw [ha2, hb2])
    have h2 : ((mz_filtered words blocksize weighted threshold).filter
          (fun x => decide (x.2 = s)))
        <+ mz_weights words blocksize weighted threshold := by
      rw [mz_weights]
      exact List.sublist_mergeSort scoreLe_trans scoreLe_total hA (List.filter_sublist _)
    have hAfix : ((mz_filtered words blocksize weighted threshold).filter
          (fun x => decide (x.2 = s))).filter (fun x => decide (x.2 = s))
        = (mz_filtered words blocksize weighted threshold).filter
            (fun x => decide (x.2 = s)) :=
      List.filter_eq_self.mpr (fun a ha => (List.mem_filter.mp ha).2)
    have h3 : ((mz_filtered words blocksize weighted threshold).filter
          (fun x => decide (x.2 = s)))
        <+ (mz_weights words blocksize weighted threshold).filter
            (fun x => decide (x.2 = s)) := by
      rw [← hAfix]
      exact List.Sublist.filter _ h2
    have h4 : (mz_weights words blocksize weighted threshold).filter
          (fun x => decide (x.2 = s))
        ~ (mz_filtered words blocksize weighted threshold).filter
            (fun x => decide (x.2 = s)) := by
      rw [mz_weights]
      exact (List.mergeSort_perm _ _).filter _
    exact (List.Sublist.eq_of_length h3 h4.length_eq.symm).symm

/-- C2, evaluated against the source: on an empty token sequence the pipeline
raises nothing — there is no `EmptyDocumentError` anywhere in the module —
and every output shape degenerates to an empty result. -/
theorem claim2_empty_doc_no_error (blocksize : ℕ) (weighted : Bool)
    (threshold : Threshold) :
    mz_weights [] blocksize weighted threshold = [] ∧
    mz_keywords_list [] blocksize weighted threshold = [] ∧
    mz_keywords_string [] blocksize weighted threshold = "" := by
  have hblocks : toBlocks blocksize ([] : List String) = [] := by
    cases blocksize <;> simp [toBlocks]
  have hscores : mz_scores [] blocksize weighted = [] := by
    simp [mz_scores]
  have hf : mz_filtered [] blocksize weighted threshold = [] := by
    rw [mz_filtered, hscores]
    rfl
  have hw : mz_weights [] blocksize weighted threshold = [] := by
    rw [mz_weights, hf, List.mergeSort_nil]
  exact ⟨hw, by rw [mz_keywords_list, hw]; rfl,
    by rw [mz_keywords_string, mz_keywords_list, hw]; rfl⟩

theorem blocks_single_a : toBlocks 1 ["a"] = [["a"]] := by
  rw [toBlocks_eq_slices 1 _ (by decide)]
  rfl

theorem vocab_single_a :
    ((["a"] : List String).dedup).mergeSort (fun a b => decide (a ≤ b)) = ["a"] := by
  have h : (["a"] : List String).dedup = ["a"] := by decide
  rw [h, List.mergeSort_singleton]

theorem mz_scores_single_a : mz_scores ["a"] 1 true = [("a", 0)] := by
  rw [mz_scores]
  simp only [vocab_single_a, blocks_single_a]
  have hcount : (["a"] : List String).count "a" = 1 := by decide
  simp only [List.map_cons, List.map_nil, hcount, List.sum_cons, List.sum_nil]
  have hwe : word_entropy [["a"]] 1 "a" = 0 := by
    rw [word_entropy]
    simp [hcount]
  have hae : analytic_entropy 1 1 1 1 = 0 := by rw [analytic_entropy]; simp
  norm_num [hwe, hae]

/-- C10: when no word's combined score exceeds the resolved threshold, the
pipeline returns (without any failure) the empty pair list, the empty
keyword list, and the empty string, depending on the output flags. -/
theorem claim10_all_below_threshold_empty_result (words : List String)
    (blocksize : ℕ) (weighted : Bool) (threshold : Threshold)
    (hne : words ≠ [])
    (hall : List.Forall
      (fun p : String × ℝ =>
        p.2 ≤ resolve_threshold (toBlocks blocksize words).length threshold)
      (mz_scores words blocksize weighted)) :
    mz_weights words blocksize weighted threshold = [] ∧
    mz_keywords_list words blocksize weighted threshold = [] ∧
    mz_keywords_string words blocksize weighted threshold = "" := by
  rw [List.forall_iff_forall_mem] at hall
  have hf : mz_filtered words blocksize weighted threshold = [] := by
    rw [mz_filtered, List.filter_eq_nil_iff]
    intro p hp
    rw [decide_eq_true_iff]
    exact not_lt.mpr (hall p hp)
  have hw : mz_weights words blocksize weighted threshold = [] := by
    rw [mz_weights, hf, List.mergeSort_nil]
  exact ⟨hw, by rw [mz_keywords_list, hw]; rfl,
    by rw [mz_keywords_string, mz_keywords_list, hw]; rfl⟩

theorem claim10_witness :
    (["a"] : List String) ≠ [] ∧
    List.Forall
      (fun p : String × ℝ =>
        p.2 ≤ resolve_threshold (toBlocks 1 ["a"]).length (Threshold.num 1))
      (mz_scores ["a"] 1 true) ∧
    (mz_weights ["a"] 1 true (Threshold.num 1) = [] ∧
      mz_keywords_list ["a"] 1 true (Threshold.num 1) = [] ∧
      mz_keywords_string ["a"] 1 true (Threshold.num 1) = "") := by
  have hforall : List.Forall
      (fun p : String × ℝ =>
        p.2 ≤ resolve_threshold (toBlocks 1 ["a"]).length (Threshold.num 1))
      (mz_scores ["a"] 1 true) := by
    rw [mz_scores_single_a]
    show (0 : ℝ) ≤ resolve_threshold (toBlocks 1 ["a"]).length (Threshold.num 1)
    rw [resolve_threshold]
    norm_num
  exact ⟨by decide, hforall,
    claim10_all_below_threshold_empty_result ["a"] 1 true (Threshold.num 1)
      (by decide) hforall⟩

theorem blocks_the8 :
    toBlocks 2 (List.replicate 8 "the") = List.replicate 4 ["the", "the"] := by
  rw [toBlocks_eq_slices 2 _ (by decide)]
  rfl

theorem vocab_the8 :
    ((List.replicate 8 "the").dedup).mergeSort (fun a b => decide (a ≤ b))
      = ["the"] := by
  have h : (List.replicate 8 "the").dedup = ["the"] := by decide
  rw [h, List.mergeSort_singleton]

theorem logb_two_quarter : Real.logb 2 ((2 : ℝ) / 8) = -2 := by
  have h1 : (2 : ℝ) / 8 = ((2 : ℝ) ^ (2 : ℕ))⁻¹ := by norm_num
  rw [h1, Real.logb_inv, Real.logb_pow, Real.logb_self_eq_one (by norm_num)]
  norm_num

/-- The observed entropy of the sole word of `"the" * 8` at blocksize 2:
four blocks, each containing the word twice, each contributing
`(2/8)·log2(2/8) = -1/2`. -/
theorem word_entropy_the8 :
    word_entropy (List.replicate 4 ["the", "the"]) 8 "the" = -2 := by
  rw [word_entropy, List.map_replicate, List.sum_replicate]
  have hc : (["the", "the"] : List String).count "the" = 2 := by decide
  rw [hc, nsmul_eq_mul]
  have h8 : ((8 : ℕ) : ℝ) = 8 := by norm_num
  have h2 : ((2 : ℕ) : ℝ) = 2 := by norm_num
  rw [h8, h2, logb_two_quarter]
  norm_num

theorem mz_scores_the8 :
    mz_scores (List.replicate 8 "the") 2 false
      = [("the", -2 + analytic_entropy 2 4 8 8)] := by
  rw [mz_scores]
  simp only [vocab_the8, blocks_the8]
  have hc : (["the", "the"] : List String).count "the" = 2 := by decide
  simp only [List.map_cons, List.map_nil, List.map_replicate, hc, List.sum_replicate,
    List.sum_cons, List.sum_nil, List.length_replicate, nsmul_eq_mul, Nat.mul_comm]
  norm_num [word_entropy_the8]

/-- C3 (amended): for the document `"the"` repeated 8 times at blocksize 2,
the observed entropy of `"the"` is exactly `-2` (not `0`), so its combined
unweighted score is its analytic entropy value plus `-2`. -/
theorem claim3_single_repeated_word :
    word_entropy (toBlocks 2 (List.replicate 8 "the")) 8 "the" = -2 ∧
    mz_scores (List.replicate 8 "the") 2 false
      = [("the", -2 + analytic_entropy 2 4 8 8)] :=
  ⟨by rw [blocks_the8]; exact word_entropy_the8, mz_scores_the8⟩

/-- C3 counterexample: at the claim's own example input the observed entropy
is not `0` and the unweighted score is not the analytic entropy value. -/
theorem claim3_counterexample :
    word_entropy (toBlocks 2 (List.replicate 8 "the")) 8 "the" ≠ 0 ∧
    mz_scores (List.replicate 8 "the") 2 false
      ≠ [("the", analytic_entropy 2 4 8 8)] := by
  constructor
  · rw [blocks_the8, word_entropy_the8]
    norm_num
  · rw [mz_scores_the8]
    intro h
    simp only [List.cons.injEq, Prod.mk.injEq] at h
    have h2 : (-2 : ℝ) + analytic_entropy 2 4 8 8 = analytic_entropy 2 4 8 8 := h.1.2
    linarith

theorem splitNlAux_no_newline :
    ∀ xs : List Char, '\n' ∉ xs → splitNlAux xs = [xs] := by
  intro xs
  induction xs with
  | nil => intro _; rfl
  | cons c cs ih =>
      intro h
      have hc : ¬ c = '\n' := fun hc => h (hc ▸ List.mem_cons_self c cs)
      rw [splitNlAux, if_neg hc, ih (fun hm => h (List.mem_cons_of_mem c hm))]

theorem splitNlAux_append (xs ys : List Char) (h : '\n' ∉ xs) :
    splitNlAux (xs ++ '\n' :: ys) = xs :: splitNlAux ys := by
  induction xs with
  | nil => simp [splitNlAux]
  | cons c cs ih =>
      have hc : ¬ c = '\n' := fun hc => h (hc ▸ List.mem_cons_self c cs)
      rw [List.cons_append, splitNlAux, if_neg hc,
        ih (fun hm => h (List.mem_cons_of_mem c hm))]

theorem splitNl_joinNl :
    ∀ l : List String, l ≠ [] → (∀ s ∈ l, '\n' ∉ s.data) →
      splitNl (joinNl l) = l := by
  intro l
  induction l with
  | nil => intro h; exact absurd rfl h
  | cons s rest ih =>
      intro _ hnl
      cases rest with
      | nil =>
          rw [joinNl, splitNl,
            splitNlAux_no_newline s.data (hnl s (List.mem_cons_self s []))]
          rfl
      | cons t rest2 =>
          rw [joinNl, splitNl]
          have hdata : (s ++ "\n" ++ joinNl (t :: rest2)).data
              = s.data ++ '\n' :: (joinNl (t :: rest2)).data := by
            simp [String.data_append]
          rw [hdata, splitNlAux_append _ _ (hnl s (List.mem_cons_self s (t :: rest2)))]
          simp only [List.map_cons]
          have hih : splitNl (joinNl (t :: rest2)) = t :: rest2 :=
            ih (by simp) (fun x hx => hnl x (List.mem_cons_of_mem s hx))
          rw [splitNl] at hih
          rw [hih]

theorem mem_mz_scores_imp (words : List String) (b : ℕ) (wt : Bool)
    (p : String × ℝ) (hp : p ∈ mz_scores words b wt) : p.1 ∈ words := by
  simp only [mz_scores] at hp
  obtain ⟨w, hw, hpw⟩ := List.mem_map.mp hp
  have hw' : w ∈ words := List.mem_dedup.mp (List.mem_mergeSort.mp hw)
  rw [← hpw]
  exact hw'

/-- C8 (amended): provided the keyword list is non-empty and no token
contains a newline, the newline-joined string output, split back on
newlines, is exactly the list output. -/
theorem claim8_string_splits_to_list (words : List String) (blocksize : ℕ)
    (weighted : Bool) (threshold : Threshold)
    (hne : mz_keywords_list words blocksize weighted threshold ≠ [])
    (hnl : List.Forall (fun w : String => '\n' ∉ w.data) words) :
    splitNl (mz_keywords_string words blocksize weighted threshold)
      = mz_keywords_list words blocksize weighted threshold := by
  rw [List.forall_iff_forall_mem] at hnl
  rw [mz_keywords_string]
  apply splitNl_joinNl _ hne
  intro s hs
  rw [mz_keywords_list] at hs
  obtain ⟨q, hq, hqs⟩ := List.mem_map.mp hs
  rw [mz_weights, List.mem_mergeSort, mz_filtered, List.mem_filter] at hq
  have hq1 : q.1 ∈ words := mem_mz_scores_imp words blocksize weighted q hq.1
  exact hqs ▸ hnl q.1 hq1

/-- C8 counterexample: on a document whose only word scores below the
threshold, the string output is `""`, which splits to `[""]`, not to the
empty keyword list. -/
theorem claim8_counterexample :
    splitNl (mz_keywords_string ["a"] 1 true (Threshold.num 1))
      ≠ mz_keywords_list ["a"] 1 true (Threshold.num 1) := by
  have hf : mz_filtered ["a"] 1 true (Threshold.num 1) = [] := by
    rw [mz_filtered, mz_scores_single_a]
    norm_num [resolve_threshold, List.filter]
  have hw : mz_weights ["a"] 1 true (Threshold.num 1) = [] := by
    rw [mz_weights, hf, List.mergeSort_nil]
  rw [mz_keywords_string, mz_keywords_list, hw]
  decide

theorem mz_list_single_a :
    mz_keywords_list ["a"] 1 true (Threshold.num (-1)) = ["a"] := by
  have hf : mz_filtered ["a"] 1 true (Threshold.num (-1)) = [("a", 0)] := by
    rw [mz_filtered, mz_scores_single_a]
    norm_num [resolve_threshold, List.filter]
  rw [mz_keywords_list, mz_weights, hf, List.mergeSort_singleton]
  rfl

theorem claim8_witness :
    mz_keywords_list ["a"] 1 true (Threshold.num (-1)) ≠ [] ∧
    List.Forall (fun w : String => '\n' ∉ w.data) ["a"] ∧
    splitNl (mz_keywords_string ["a"] 1 true (Threshold.num (-1)))
      = mz_keywords_list ["a"] 1 true (Threshold.num (-1)) := by
  have hne : mz_keywords_list ["a"] 1 true (Threshold.num (-1)) ≠ [] := by
    rw [mz_list_single_a]
    decide
  have hnl : List.Forall (fun w : String => '\n' ∉ w.data) ["a"] := by
    rw [List.forall_iff_forall_mem]
    decide
  exact ⟨hne, hnl,
    claim8_string_splits_to_list ["a"] 1 true (Threshold.num (-1)) hne hnl⟩
